import Mathlib

/-!
Shallow embedding of the cache-backed acquisition layer, the history ledger
and the interactive playback session controller of yt_audio_player.py,
with theorems checking the design documentation against the code.

Conventions:
- JSON dicts become structures holding the fields the embedded functions read
  or write; absent dict keys and JSON null both become none.
- Filesystem state becomes explicit values threaded through the functions.
- The loops of the source are mirrored either structurally (when they are
  bounded by the code itself) or with an explicit fuel argument (when the
  source loop need not terminate).
-/

/- ------------------------------------------------------------------
   History (append_history, show_history_paged clear command)
   ------------------------------------------------------------------ -/

/-- Model of one history dict: the fields read or written by append_history
and the clear command of show_history_paged in yt_audio_player.py.
The field htype stands for the "type" key. A missing key and None both
become none. -/
structure HistoryEntry where
  htype : String
  playlist_url : Option String
  track_url : Option String
  title : Option String
  timestamp : Nat
  play_count : Nat := 0
deriving DecidableEq, Repr

/-- Python truthiness of an optional string: None and the empty string are
falsy, any other string is truthy. -/
def strTruthy : Option String → Option String
  | none => none
  | some s => if s = "" then none else some s

/-- Key used by append_history, line 438 of yt_audio_player.py:
entry.get("track_url") or entry.get("playlist_url") or "". -/
def history_key (e : HistoryEntry) : String :=
  match strTruthy e.track_url with
  | some s => s
  | none =>
    match strTruthy e.playlist_url with
    | some s => s
    | none => ""

/-- Model of the persistent play-count index (history_index.json): an
association list from key to count, read with dict.get(key, 0). -/
def idxGet : List (String × Nat) → String → Nat
  | [], _ => 0
  | p :: rest, k => if p.1 = k then p.2 else idxGet rest k

/-- Model of the dict store idx[key] = count: replace in place, else append. -/
def idxSet : List (String × Nat) → String → Nat → List (String × Nat)
  | [], k, v => [(k, v)]
  | p :: rest, k, v => if p.1 = k then (k, v) :: rest else p :: idxSet rest k v

/-- Combined persistent state of the history feature: the play-count index
file and the ledger file. -/
structure HistoryState where
  index : List (String × Nat)
  ledger : List HistoryEntry
deriving DecidableEq, Repr

/-- Model of append_history (yt_audio_player.py lines 435-450): look up and
increment the persistent count for the key of the entry, stamp play_count
onto the entry, save the index, then append the stamped entry to the
ledger file. -/
def append_history (st : HistoryState) (e : HistoryEntry) : HistoryState :=
  let key := history_key e
  let count := idxGet st.index key + 1
  { index := idxSet st.index key count,
    ledger := st.ledger ++ [{ e with play_count := count }] }

/-- Model of the clear command of show_history_paged (lines 573-585, after
the YES confirmation): write an empty list to the ledger file and an empty
dict to the index file. -/
def clear_history (_st : HistoryState) : HistoryState :=
  { index := [], ledger := [] }

/-- Folding append_history over a list of entries. -/
def appendAll (st : HistoryState) (es : List HistoryEntry) : HistoryState :=
  es.foldl append_history st

/-- Reading a key just set returns the value set. -/
theorem idxGet_idxSet_self (idx : List (String × Nat)) (k : String) (v : Nat) :
    idxGet (idxSet idx k v) k = v := by
  induction idx with
  | nil => simp [idxSet, idxGet]
  | cons p rest ih =>
    by_cases h : p.1 = k
    · simp [idxSet, idxGet, h]
    · simp [idxSet, idxGet, h, ih]

/-- C9: appending a record looks up and increments the persistent index for
the key of the record and stamps the incremented value as play_count, so two
records carrying the same reference get play_count 1 then 2 when the index
held no count for that reference; the clear operation resets both the ledger
and the index to empty. -/
theorem C9_history_play_counts (st : HistoryState) (e1 e2 : HistoryEntry)
    (hkey : history_key e2 = history_key e1)
    (h0 : idxGet st.index (history_key e1) = 0) :
    (append_history st e1).ledger = st.ledger ++ [{ e1 with play_count := 1 }] ∧
    (append_history (append_history st e1) e2).ledger =
      st.ledger ++ [{ e1 with play_count := 1 }, { e2 with play_count := 2 }] ∧
    idxGet (append_history st e1).index (history_key e1) = 1 ∧
    idxGet (append_history (append_history st e1) e2).index (history_key e1) = 2 ∧
    (clear_history (append_history (append_history st e1) e2)).ledger = [] ∧
    (clear_history (append_history (append_history st e1) e2)).index = [] := by
  have h1 : idxGet (idxSet st.index (history_key e1) 1) (history_key e1) = 1 :=
    idxGet_idxSet_self _ _ _
  refine ⟨by simp [append_history, h0], ?_, ?_, ?_, rfl, rfl⟩
  · simp [append_history, h0, hkey, h1, List.append_assoc]
  · simp [append_history, h0, h1]
  · simp [append_history, h0, hkey, h1, idxGet_idxSet_self]

/-- Concrete first entry used by the history witnesses. -/
def wEntry1 : HistoryEntry :=
  { htype := "single", playlist_url := none, track_url := some "https://e/x",
    title := some "track x", timestamp := 100 }

/-- Concrete second entry used by the history witnesses: same track_url. -/
def wEntry2 : HistoryEntry :=
  { htype := "playlist_entry", playlist_url := some "https://e/pl",
    track_url := some "https://e/x", title := none, timestamp := 160 }

/-- Witness for C9 at a concrete state and two concrete entries. -/
theorem C9_history_play_counts_witness :
    history_key wEntry2 = history_key wEntry1 ∧
    idxGet (HistoryState.mk [] []).index (history_key wEntry1) = 0 ∧
    ((append_history ⟨[], []⟩ wEntry1).ledger =
      [] ++ [{ wEntry1 with play_count := 1 }] ∧
    (append_history (append_history ⟨[], []⟩ wEntry1) wEntry2).ledger =
      [] ++ [{ wEntry1 with play_count := 1 }, { wEntry2 with play_count := 2 }] ∧
    idxGet (append_history ⟨[], []⟩ wEntry1).index (history_key wEntry1) = 1 ∧
    idxGet (append_history (append_history ⟨[], []⟩ wEntry1) wEntry2).index
      (history_key wEntry1) = 2 ∧
    (clear_history (append_history (append_history ⟨[], []⟩ wEntry1) wEntry2)).ledger = [] ∧
    (clear_history (append_history (append_history ⟨[], []⟩ wEntry1) wEntry2)).index = []) :=
  ⟨rfl, rfl, C9_history_play_counts ⟨[], []⟩ wEntry1 wEntry2 rfl rfl⟩

/-- Helper for C10: appending entries whose key is the empty string stamps
consecutive counts continuing from the current index value of the empty key,
and advances that index value by the number of entries appended. -/
theorem appendAll_empty_key (es : List HistoryEntry) :
    ∀ st : HistoryState, (∀ e ∈ es, history_key e = "") →
    ((appendAll st es).ledger.map (fun e => e.play_count) =
      st.ledger.map (fun e => e.play_count) ++
        List.range' (idxGet st.index "" + 1) es.length) ∧
    idxGet (appendAll st es).index "" = idxGet st.index "" + es.length := by
  induction es with
  | nil => intro st _; simp [appendAll]
  | cons e es ih =>
    intro st h
    have hke : history_key e = "" := h e (by simp)
    have hrest : ∀ x ∈ es, history_key x = "" := fun x hx => h x (by simp [hx])
    have hstep : appendAll st (e :: es) = appendAll (append_history st e) es := by
      simp [appendAll]
    have hidx : idxGet (append_history st e).index "" = idxGet st.index "" + 1 := by
      simp [append_history, hke, idxGet_idxSet_self]
    have hled : (append_history st e).ledger.map (fun e => e.play_count) =
        st.ledger.map (fun e => e.play_count) ++ [idxGet st.index "" + 1] := by
      simp [append_history, hke]
    obtain ⟨ihl, ihi⟩ := ih (append_history st e) hrest
    constructor
    · rw [hstep, ihl, hled, hidx, List.append_assoc]
      simp [List.range']
    · rw [hstep, ihi, hidx]
      simp only [List.length_cons]
      omega

/-- C10: a record carrying neither a track_url nor a playlist_url is keyed
under the empty string, so all such records share one counter: starting from
an empty index and ledger, the n-th appended referenceless record is stamped
play_count n. -/
theorem C10_empty_key_shared_counter (st : HistoryState) (es : List HistoryEntry)
    (hkl : ∀ e ∈ es, e.track_url = none ∧ e.playlist_url = none)
    (h0 : idxGet st.index "" = 0) (hled : st.ledger = []) :
    (∀ e ∈ es, history_key e = "") ∧
    (appendAll st es).ledger.map (fun e => e.play_count) = List.range' 1 es.length ∧
    idxGet (appendAll st es).index "" = es.length := by
  have hk : ∀ e ∈ es, history_key e = "" := by
    intro e he
    obtain ⟨ht, hp⟩ := hkl e he
    simp [history_key, ht, hp, strTruthy]
  obtain ⟨hl, hi⟩ := appendAll_empty_key es st hk
  refine ⟨hk, ?_, ?_⟩
  · rw [hl, hled, h0]; simp
  · rw [hi, h0]; simp

/-- Concrete referenceless entries used by the C10 witness. -/
def wKeyless : List HistoryEntry :=
  [{ htype := "single", playlist_url := none, track_url := none,
     title := some "a", timestamp := 1 },
   { htype := "playlist", playlist_url := none, track_url := none,
     title := some "b", timestamp := 2 },
   { htype := "single", playlist_url := none, track_url := none,
     title := none, timestamp := 3 }]

/-- Witness for C10 at three concrete referenceless entries. -/
theorem C10_empty_key_shared_counter_witness :
    (∀ e ∈ wKeyless, e.track_url = none ∧ e.playlist_url = none) ∧
    idxGet (HistoryState.mk [] []).index "" = 0 ∧
    ((∀ e ∈ wKeyless, history_key e = "") ∧
     (appendAll ⟨[], []⟩ wKeyless).ledger.map (fun e => e.play_count) =
       List.range' 1 wKeyless.length ∧
     idxGet (appendAll ⟨[], []⟩ wKeyless).index "" = wKeyless.length) :=
  ⟨by decide, rfl, C10_empty_key_shared_counter ⟨[], []⟩ wKeyless (by decide) rfl rfl⟩

/- ------------------------------------------------------------------
   Cache store: files, sorting, prune_cache
   ------------------------------------------------------------------ -/

/-- Model of one file in the cache directory. Every file the embedded code
creates is named stem.ext (the source builds names from a digest stem plus
an extension chosen by the downloader), so names are modeled structurally
as a stem and an extension. The complete flag distinguishes a fully written
file from one a crashed or in-flight download left behind; mtime and atime
model the stat fields st_mtime and st_atime. -/
structure CFile where
  stem : String
  ext  : String
  complete : Bool
  mtime : Nat
  atime : Nat
deriving DecidableEq, Repr

/-- Insertion of one element into a list sorted by the boolean order le,
keeping stability: the new element goes before the first strictly later
element. -/
def insertSorted (le : α → α → Bool) (x : α) : List α → List α
  | [] => [x]
  | y :: ys => if le x y then x :: y :: ys else y :: insertSorted le x ys

/-- Stable insertion sort, modeling Python sorted with a key function. -/
def insertionSort (le : α → α → Bool) : List α → List α
  | [] => []
  | x :: xs => insertSorted le x (insertionSort le xs)

/-- Order used by prune_cache line 657: key=lambda p: p.stat().st_atime. -/
def atimeLe (a b : CFile) : Bool := a.atime ≤ b.atime

/-- Model of sorted(cache_dir.iterdir(), key=lambda p: p.stat().st_atime). -/
def sortByAtime (fs : List CFile) : List CFile := insertionSort atimeLe fs

/-- Model of the deletion loop of prune_cache (lines 658-663): while more
files remain than max_files, try to unlink the first (oldest) file; a
successful unlink removes it and the loop continues, a raising unlink is
swallowed and breaks the whole loop. The fails oracle tells which unlink
calls raise. The result is the list of files left on disk. -/
def prune_go (fails : String → String → Bool) (max_files : Nat) :
    List CFile → List CFile
  | [] => []
  | f :: rest =>
    if (f :: rest).length > max_files then
      if fails f.stem f.ext then f :: rest
      else prune_go fails max_files rest
    else f :: rest

/-- Model of prune_cache (yt_audio_player.py lines 654-663): list the cache
directory, sort ascending by last access time, delete oldest-first until at
most max_files remain, stopping at the first failed deletion. -/
def prune_cache (fails : String → String → Bool) (max_files : Nat)
    (fs : List CFile) : List CFile :=
  prune_go fails max_files (sortByAtime fs)

/-- Inserting permutes to consing. -/
theorem insertSorted_perm (le : α → α → Bool) (x : α) (l : List α) :
    (insertSorted le x l).Perm (x :: l) := by
  induction l with
  | nil => simp [insertSorted]
  | cons y ys ih =>
    simp only [insertSorted]
    split
    · exact List.Perm.refl _
    · exact ((ih).cons y).trans (List.Perm.swap x y ys)

/-- Insertion sort permutes its input. -/
theorem insertionSort_perm (le : α → α → Bool) (l : List α) :
    (insertionSort le l).Perm l := by
  induction l with
  | nil => simp [insertionSort]
  | cons x xs ih =>
    exact (insertSorted_perm le x (insertionSort le xs)).trans (ih.cons x)

/-- Membership in an insertion. -/
theorem mem_insertSorted {le : α → α → Bool} {x z : α} {l : List α} :
    z ∈ insertSorted le x l ↔ z = x ∨ z ∈ l := by
  constructor
  · intro h
    have := (insertSorted_perm le x l).mem_iff.mp h
    simpa using this
  · intro h
    apply (insertSorted_perm le x l).mem_iff.mpr
    simpa using h

/-- Inserting into a list sorted by a transitive total boolean order keeps
it sorted. -/
theorem insertSorted_pairwise {le : α → α → Bool}
    (htrans : ∀ a b c, le a b = true → le b c = true → le a c = true)
    (htot : ∀ a b, le a b = false → le b a = true) (x : α) {l : List α}
    (h : l.Pairwise (fun a b => le a b = true)) :
    (insertSorted le x l).Pairwise (fun a b => le a b = true) := by
  induction l with
  | nil => simp [insertSorted]
  | cons y ys ih =>
    rw [List.pairwise_cons] at h
    obtain ⟨hy, hys⟩ := h
    simp only [insertSorted]
    split
    · rename_i hxy
      refine List.pairwise_cons.mpr ⟨?_, List.pairwise_cons.mpr ⟨hy, hys⟩⟩
      intro z hz
      rcases hz with _ | hz
      · exact hxy
      · exact htrans x y z hxy (hy z (by assumption))
    · rename_i hxy
      have hyx : le y x = true := htot x y (by simpa using hxy)
      refine List.pairwise_cons.mpr ⟨?_, ih hys⟩
      intro z hz
      rcases mem_insertSorted.mp hz with rfl | hz
      · exact hyx
      · exact hy z hz

/-- Insertion sort produces a list sorted for the boolean order, given that
the order is transitive and total. -/
theorem insertionSort_pairwise {le : α → α → Bool}
    (htrans : ∀ a b c, le a b = true → le b c = true → le a c = true)
    (htot : ∀ a b, le a b = false → le b a = true) :
    ∀ l : List α, (insertionSort le l).Pairwise (fun a b => le a b = true)
  | [] => by simp [insertionSort]
  | x :: xs => by
    simpa [insertionSort] using
      insertSorted_pairwise htrans htot x (insertionSort_pairwise htrans htot xs)

/-- Sorting by access time permutes the directory listing. -/
theorem sortByAtime_perm (fs : List CFile) : (sortByAtime fs).Perm fs :=
  insertionSort_perm atimeLe fs

/-- Sorting by access time yields ascending access times. -/
theorem sortByAtime_sorted (fs : List CFile) :
    (sortByAtime fs).Pairwise (fun a b => a.atime ≤ b.atime) := by
  have h := @insertionSort_pairwise CFile atimeLe
    (fun a b c hab hbc => by
      simp only [atimeLe, decide_eq_true_eq] at *; omega)
    (fun a b hab => by
      simp only [atimeLe, decide_eq_true_eq, decide_eq_false_iff_not] at *; omega)
    fs
  exact h.imp (fun hab => by simpa [atimeLe] using hab)

/-- Deletion loop with no failing unlink: the oldest entries are dropped
until max_files remain. -/
theorem prune_go_nofail (fails : String → String → Bool) (m : Nat) :
    ∀ l : List CFile, (∀ f ∈ l, fails f.stem f.ext = false) →
    prune_go fails m l = l.drop (l.length - m)
  | [], _ => by simp [prune_go]
  | f :: rest, h => by
    by_cases hlen : (f :: rest).length > m
    · have hf : fails f.stem f.ext = false := h f (by simp)
      have ih := prune_go_nofail fails m rest (fun g hg => h g (by simp [hg]))
      have harith : (f :: rest).length - m = (rest.length - m) + 1 := by
        simp only [List.length_cons] at *; omega
      simp only [prune_go, if_pos hlen, hf, Bool.false_eq_true, if_false, ih,
        harith, List.drop_succ_cons]
    · have harith : (f :: rest).length - m = 0 := by omega
      simp only [prune_go, if_neg hlen, harith, List.drop_zero]

/-- C4: if the cache directory holds N + k entries with pairwise distinct
access times, the limit is N files and every deletion succeeds, then pruning
leaves exactly N entries, all drawn from the directory, and every surviving
entry was accessed more recently than every removed one: the k oldest are
removed and the N most recent remain. -/
theorem C4_prune_evicts_oldest (fails : String → String → Bool) (N k : Nat)
    (fs : List CFile)
    (hdist : fs.Pairwise (fun a b => a.atime ≠ b.atime))
    (hlen : fs.length = N + k)
    (hok : ∀ f ∈ fs, fails f.stem f.ext = false) :
    (prune_cache fails N fs).length = N ∧
    (∀ f ∈ prune_cache fails N fs, f ∈ fs) ∧
    (∀ f ∈ prune_cache fails N fs, ∀ g ∈ fs,
      g ∉ prune_cache fails N fs → g.atime < f.atime) := by
  have hperm := sortByAtime_perm fs
  have hslen : (sortByAtime fs).length = N + k := by rw [hperm.length_eq, hlen]
  have hoks : ∀ f ∈ sortByAtime fs, fails f.stem f.ext = false :=
    fun f hf => hok f (hperm.mem_iff.mp hf)
  have hr : prune_cache fails N fs =
      (sortByAtime fs).drop ((sortByAtime fs).length - N) :=
    prune_go_nofail fails N (sortByAtime fs) hoks
  have hne : (sortByAtime fs).Pairwise (fun a b => a.atime ≠ b.atime) :=
    (hperm.pairwise_iff (by intro a b h; exact h.symm)).mpr hdist
  have hlt : (sortByAtime fs).Pairwise (fun a b => a.atime < b.atime) :=
    ((sortByAtime_sorted fs).and hne).imp (fun h => lt_of_le_of_ne h.1 h.2)
  have hsplit := List.take_append_drop ((sortByAtime fs).length - N) (sortByAtime fs)
  have hcross : ∀ g ∈ (sortByAtime fs).take ((sortByAtime fs).length - N),
      ∀ f ∈ (sortByAtime fs).drop ((sortByAtime fs).length - N),
      g.atime < f.atime := by
    have h2 : ((sortByAtime fs).take ((sortByAtime fs).length - N) ++
        (sortByAtime fs).drop ((sortByAtime fs).length - N)).Pairwise
        (fun a b => a.atime < b.atime) := by rw [hsplit]; exact hlt
    exact (List.pairwise_append.mp h2).2.2
  refine ⟨?_, ?_, ?_⟩
  · rw [hr, List.length_drop, hslen]; omega
  · intro f hf
    rw [hr] at hf
    exact hperm.mem_iff.mp (List.mem_of_mem_drop hf)
  · intro f hf g hg hgr
    rw [hr] at hf hgr
    have hgs : g ∈ sortByAtime fs := hperm.mem_iff.mpr hg
    have : g ∈ (sortByAtime fs).take ((sortByAtime fs).length - N) ++
        (sortByAtime fs).drop ((sortByAtime fs).length - N) := by rw [hsplit]; exact hgs
    rcases List.mem_append.mp this with hgt | hgd
    · exact hcross g hgt f hf
    · exact absurd hgd hgr

/-- Concrete cache entries with distinct access times for the prune
witnesses and the C7 counterexample. -/
def wPrA : CFile := { stem := "a", ext := "webm", complete := true, mtime := 1, atime := 1 }

/-- Concrete cache entry with access time 2. -/
def wPrB : CFile := { stem := "b", ext := "webm", complete := true, mtime := 2, atime := 2 }

/-- Concrete cache entry with access time 3. -/
def wPrC : CFile := { stem := "c", ext := "webm", complete := true, mtime := 3, atime := 3 }

/-- Deletion oracle with no failures. -/
def noPruneFail : String → String → Bool := fun _ _ => false

/-- Witness for C4 at three concrete entries and a limit of two. -/
theorem C4_prune_evicts_oldest_witness :
    ([wPrB, wPrA, wPrC].Pairwise (fun a b => a.atime ≠ b.atime) ∧
     [wPrB, wPrA, wPrC].length = 2 + 1 ∧
     (∀ f ∈ [wPrB, wPrA, wPrC], noPruneFail f.stem f.ext = false)) ∧
    ((prune_cache noPruneFail 2 [wPrB, wPrA, wPrC]).length = 2 ∧
     (∀ f ∈ prune_cache noPruneFail 2 [wPrB, wPrA, wPrC], f ∈ [wPrB, wPrA, wPrC]) ∧
     (∀ f ∈ prune_cache noPruneFail 2 [wPrB, wPrA, wPrC], ∀ g ∈ [wPrB, wPrA, wPrC],
       g ∉ prune_cache noPruneFail 2 [wPrB, wPrA, wPrC] → g.atime < f.atime)) :=
  ⟨⟨by decide, by decide, by decide⟩,
   C4_prune_evicts_oldest noPruneFail 2 1 [wPrB, wPrA, wPrC]
     (by decide) (by decide) (by decide)⟩

/-- Deletion oracle for which only the entry with stem a fails to unlink. -/
def failOnlyA : String → String → Bool := fun s _ => s == "a"

/-- C7 counterexample: with three entries of access times 1, 2, 3, a limit
of one file and an unlink that fails only for the oldest entry, prune_cache
deletes nothing at all: the two deletable younger entries are never
considered and the directory stays above the limit, so a deletion failure
ends the eviction pass early instead of being skipped. -/
theorem C7_counterexample :
    prune_cache failOnlyA 1 [wPrA, wPrB, wPrC] = [wPrA, wPrB, wPrC] ∧
    failOnlyA wPrB.stem wPrB.ext = false ∧
    failOnlyA wPrC.stem wPrC.ext = false ∧
    1 < (prune_cache failOnlyA 1 [wPrA, wPrB, wPrC]).length := by
  refine ⟨by decide, by decide, by decide, by decide⟩

/-- C7 amended: a deletion failure is never fatal in the sense that the
exception is swallowed and prune_cache returns normally, but it is also not
skipped: the first failing deletion ends the eviction pass immediately and
silently, leaving every file, including all deletable younger ones, on
disk even when the count still exceeds the limit. -/
theorem C7_first_failure_ends_pass (fails : String → String → Bool)
    (maxF : Nat) (fs : List CFile) (f : CFile) (rest : List CFile)
    (hs : sortByAtime fs = f :: rest)
    (hf : fails f.stem f.ext = true)
    (hlen : fs.length > maxF) :
    prune_cache fails maxF fs = sortByAtime fs := by
  have hl : (f :: rest).length > maxF := by
    rw [← hs, (sortByAtime_perm fs).length_eq]
    exact hlen
  unfold prune_cache
  rw [hs]
  simp only [prune_go, if_pos hl, hf, if_true]

/-- Witness for the amended C7 theorem at the counterexample input. -/
theorem C7_first_failure_ends_pass_witness :
    (sortByAtime [wPrA, wPrB, wPrC] = wPrA :: [wPrB, wPrC] ∧
     failOnlyA wPrA.stem wPrA.ext = true ∧
     [wPrA, wPrB, wPrC].length > 1) ∧
    prune_cache failOnlyA 1 [wPrA, wPrB, wPrC] = sortByAtime [wPrA, wPrB, wPrC] :=
  ⟨⟨by decide, by decide, by decide⟩,
   C7_first_failure_ends_pass failOnlyA 1 [wPrA, wPrB, wPrC] wPrA [wPrB, wPrC]
     (by decide) (by decide) (by decide)⟩

/- ------------------------------------------------------------------
   Cache lookup and download_to_cache
   ------------------------------------------------------------------ -/

/-- Model of hashlib.sha1(url.encode()).hexdigest() used by
_url_to_filename (lines 637-642): an unspecified deterministic digest of
the url. The theorems rely only on determinism, so the digest is modeled
as the url string itself. -/
def sha1_hexdigest (url : String) : String := url

/-- Stem of the cache path for a url: _url_to_filename produces digest plus
the fixed extension webm, and out_path.stem (line 694) is the digest. -/
def url_stem (url : String) : String := sha1_hexdigest url

/-- Model of Path.exists on a name in the cache directory; true also for a
file that an in-flight or crashed download left incomplete. -/
def fileExists (fs : List CFile) (stem ext : String) : Bool :=
  fs.any (fun f => f.stem == stem && f.ext == ext)

/-- Model of get_cached_file_for_url (lines 645-651): build the fixed
filename digest.webm for the url and return that path if such a file
exists, else None. The path is returned as its (stem, ext) name. -/
def get_cached_file_for_url (fs : List CFile) (url : String) :
    Option (String × String) :=
  if fileExists fs (url_stem url) "webm" then some (url_stem url, "webm") else none

/-- Model of Path.unlink: remove the file of the given name. -/
def removeFile (fs : List CFile) (stem ext : String) : List CFile :=
  fs.filter (fun f => !(f.stem == stem && f.ext == ext))

/-- Freshly written cache file of the given name, stamped with the clock. -/
def newCFile (stem ext : String) (clock : Nat) : CFile :=
  { stem := stem, ext := ext, complete := true, mtime := clock, atime := clock }

/-- Model of a downloader invocation that ran to completion: the finished
file appears at the template path stem.ext, replacing any file of that
name, stamped with the current clock as its stat times. -/
def writeFile (fs : List CFile) (stem ext : String) (clock : Nat) : List CFile :=
  removeFile fs stem ext ++ [newCFile stem ext clock]

/-- Order used on glob matches at line 717: key=st_mtime with reverse=True,
newest first. -/
def mtimeDesc (a b : CFile) : Bool := b.mtime ≤ a.mtime

/-- Model of cache_dir.glob(stem + ".*"): the files with the given stem. -/
def globStem (fs : List CFile) (stem : String) : List CFile :=
  fs.filter (fun f => f.stem == stem)

/-- Environment of one download_to_cache call: which downloader invocations
raise and which complete, with the extension the downloader chose; whether
the force-refresh unlink succeeds; and which deletions fail in the eviction
pass that runs after a completed download. -/
structure DlEnv where
  attemptExt : Nat → Option String
  unlinkOk : Bool
  pruneFails : String → String → Bool

/-- Result of download_to_cache: cache directory contents, advanced write
clock, the returned path if any, and how many downloader invocations were
made. -/
structure DlOut where
  fs : List CFile
  clock : Nat
  ret : Option (String × String)
  downloads : Nat
deriving DecidableEq, Repr

/-- Model of the retry loop of download_to_cache (lines 705-742), with rem
remaining iterations (the code allows max_retries + 1) and att the current
attempt index. A completed downloader call writes the file at the template
path, the newest glob match for the stem becomes real_path, the eviction
pass runs, and real_path is returned if it still exists; a raising call, or
a real_path that no longer exists, falls through to the next attempt. -/
def dl_loop (env : DlEnv) (maxFiles : Nat) (stem : String) :
    Nat → Nat → List CFile → Nat → Nat → DlOut
  | 0, _, fs, ck, d => ⟨fs, ck, none, d⟩
  | rem + 1, att, fs, ck, d =>
    match env.attemptExt att with
    | none => dl_loop env maxFiles stem rem (att + 1) fs ck (d + 1)
    | some ext =>
      let fs1 := writeFile fs stem ext ck
      let realPath := (insertionSort mtimeDesc (globStem fs1 stem)).head?
      let fs2 := prune_cache env.pruneFails maxFiles fs1
      match realPath with
      | some f =>
        if fileExists fs2 f.stem f.ext then ⟨fs2, ck + 1, some (f.stem, f.ext), d + 1⟩
        else dl_loop env maxFiles stem rem (att + 1) fs2 (ck + 1) (d + 1)
      | none => dl_loop env maxFiles stem rem (att + 1) fs2 (ck + 1) (d + 1)

/-- Model of download_to_cache (yt_audio_player.py lines 666-742). With a
cache hit and no force-refresh the cached path is returned with no
downloader call; with a cache hit and force-refresh the cached file is
unlinked first when the unlink succeeds (a raising unlink is swallowed and
the file stays), then the retry loop runs; on a miss the retry loop runs
directly. -/
def download_to_cache (env : DlEnv) (force : Bool) (maxRetries maxFiles : Nat)
    (url : String) (fs : List CFile) (ck : Nat) : DlOut :=
  let stem := url_stem url
  match get_cached_file_for_url fs url, force with
  | some p, false => ⟨fs, ck, some p, 0⟩
  | some _, true =>
    let fs1 := if env.unlinkOk then removeFile fs stem "webm" else fs
    dl_loop env maxFiles stem (maxRetries + 1) 0 fs1 ck 0
  | none, _ => dl_loop env maxFiles stem (maxRetries + 1) 0 fs ck 0

/-- Every file of the cache directory is fully written. -/
def AllComplete (fs : List CFile) : Prop := ∀ f ∈ fs, f.complete = true

/-- No two files of the cache directory share a name. -/
def UniqueNames (fs : List CFile) : Prop :=
  fs.Pairwise (fun a b => ¬(a.stem = b.stem ∧ a.ext = b.ext))

/-- Cache operations visible to this layer, for iterating states. -/
inductive CacheOp where
  | download (env : DlEnv) (force : Bool) (maxRetries maxFiles : Nat) (url : String)
  | evict (fails : String → String → Bool) (maxFiles : Nat)

/-- Run of a sequence of cache operations from a directory state. -/
def runOps : List CacheOp → List CFile × Nat → List CFile × Nat
  | [], st => st
  | op :: ops, (fs, ck) =>
    match op with
    | .download env force mr mf url =>
      let out := download_to_cache env force mr mf url fs ck
      runOps ops (out.fs, out.clock)
    | .evict fails mf => runOps ops (prune_cache fails mf fs, ck)

/-- Head of a list is a member. -/
theorem mem_of_head? {l : List α} {a : α} (h : l.head? = some a) : a ∈ l := by
  cases l with
  | nil => simp at h
  | cons x xs =>
    simp only [List.head?_cons, Option.some.injEq] at h
    rw [← h]
    exact List.mem_cons_self x xs

/-- Existence of a name unfolded to membership. -/
theorem fileExists_iff {fs : List CFile} {s e : String} :
    fileExists fs s e = true ↔ ∃ f ∈ fs, f.stem = s ∧ f.ext = e := by
  simp [fileExists, List.any_eq_true, Bool.and_eq_true, beq_iff_eq]

/-- Membership after an unlink. -/
theorem mem_removeFile {fs : List CFile} {s e : String} {g : CFile} :
    g ∈ removeFile fs s e ↔ g ∈ fs ∧ ¬(g.stem = s ∧ g.ext = e) := by
  simp only [removeFile, List.mem_filter, Bool.not_eq_true', Bool.and_eq_false_iff,
    beq_eq_false_iff_ne, ne_eq]
  tauto

/-- Unlinking a name removes it. -/
theorem fileExists_removeFile_self (fs : List CFile) (s e : String) :
    fileExists (removeFile fs s e) s e = false := by
  by_contra h
  rw [Bool.not_eq_false] at h
  obtain ⟨f, hf, h1, h2⟩ := fileExists_iff.mp h
  exact (mem_removeFile.mp hf).2 ⟨h1, h2⟩

/-- Membership after a completed downloader write. -/
theorem mem_writeFile {fs : List CFile} {s e : String} {ck : Nat} {g : CFile} :
    g ∈ writeFile fs s e ck ↔
      (g ∈ fs ∧ ¬(g.stem = s ∧ g.ext = e)) ∨ g = newCFile s e ck := by
  simp [writeFile, mem_removeFile, List.mem_append]

/-- Completed writes keep every file fully written. -/
theorem AllComplete_writeFile {fs : List CFile} (h : AllComplete fs)
    (s e : String) (ck : Nat) : AllComplete (writeFile fs s e ck) := by
  intro g hg
  rcases mem_writeFile.mp hg with ⟨hmem, _⟩ | rfl
  · exact h g hmem
  · rfl

/-- Unlinks keep every file fully written. -/
theorem AllComplete_removeFile {fs : List CFile} (h : AllComplete fs)
    (s e : String) : AllComplete (removeFile fs s e) :=
  fun g hg => h g (mem_removeFile.mp hg).1

/-- The deletion loop only removes files. -/
theorem prune_go_sublist (fails : String → String → Bool) (m : Nat) :
    ∀ l : List CFile, (prune_go fails m l).Sublist l
  | [] => by simp [prune_go]
  | f :: rest => by
    simp only [prune_go]
    split
    · split
      · exact List.Sublist.refl _
      · exact List.Sublist.cons f (prune_go_sublist fails m rest)
    · exact List.Sublist.refl _

/-- Surviving an eviction pass means having been in the directory. -/
theorem mem_prune_cache {fails : String → String → Bool} {m : Nat}
    {fs : List CFile} {f : CFile} (h : f ∈ prune_cache fails m fs) : f ∈ fs :=
  (sortByAtime_perm fs).mem_iff.mp
    ((prune_go_sublist fails m (sortByAtime fs)).subset h)

/-- Eviction keeps every file fully written. -/
theorem AllComplete_prune {fails : String → String → Bool} {m : Nat}
    {fs : List CFile} (h : AllComplete fs) :
    AllComplete (prune_cache fails m fs) :=
  fun g hg => h g (mem_prune_cache hg)

/-- Eviction keeps names unique. -/
theorem UniqueNames_prune {fails : String → String → Bool} {m : Nat}
    {fs : List CFile} (h : UniqueNames fs) :
    UniqueNames (prune_cache fails m fs) := by
  have hs : UniqueNames (sortByAtime fs) :=
    ((sortByAtime_perm fs).pairwise_iff
      (by intro a b hab; exact fun hc => hab ⟨hc.1.symm, hc.2.symm⟩)).mpr h
  exact hs.sublist (prune_go_sublist fails m (sortByAtime fs))

/-- Unlinks keep names unique. -/
theorem UniqueNames_removeFile {fs : List CFile} (h : UniqueNames fs)
    (s e : String) : UniqueNames (removeFile fs s e) :=
  h.sublist (List.filter_sublist fs)

/-- Completed writes keep names unique: the write replaces any file of the
same name. -/
theorem UniqueNames_writeFile {fs : List CFile} (h : UniqueNames fs)
    (s e : String) (ck : Nat) : UniqueNames (writeFile fs s e ck) := by
  unfold writeFile
  apply List.pairwise_append.mpr
  refine ⟨UniqueNames_removeFile h s e, by simp, ?_⟩
  intro a ha b hb
  simp only [List.mem_singleton] at hb
  subst hb
  intro hc
  exact (mem_removeFile.mp ha).2 ⟨hc.1, hc.2⟩

/-- Invariant of the retry loop: starting from a directory of fully written
files with unique names, the loop keeps every file fully written and names
unique, and any returned path carries the stem of the url and names a file
that exists in the final directory. -/
theorem dl_loop_inv (env : DlEnv) (mf : Nat) (stem : String) :
    ∀ rem att fs ck d, AllComplete fs → UniqueNames fs →
    AllComplete (dl_loop env mf stem rem att fs ck d).fs ∧
    UniqueNames (dl_loop env mf stem rem att fs ck d).fs ∧
    (∀ s e, (dl_loop env mf stem rem att fs ck d).ret = some (s, e) →
      s = stem ∧ fileExists (dl_loop env mf stem rem att fs ck d).fs s e = true) := by
  intro rem
  induction rem with
  | zero =>
    intro att fs ck d hc hu
    refine ⟨hc, hu, ?_⟩
    intro s e hret
    simp [dl_loop] at hret
  | succ rem ih =>
    intro att fs ck d hc hu
    cases hext : env.attemptExt att with
    | none =>
      simpa only [dl_loop, hext] using ih (att + 1) fs ck (d + 1) hc hu
    | some ext =>
      have hc2 : AllComplete (prune_cache env.pruneFails mf (writeFile fs stem ext ck)) :=
        AllComplete_prune (AllComplete_writeFile hc stem ext ck)
      have hu2 : UniqueNames (prune_cache env.pruneFails mf (writeFile fs stem ext ck)) :=
        UniqueNames_prune (UniqueNames_writeFile hu stem ext ck)
      cases hhd : (insertionSort mtimeDesc (globStem (writeFile fs stem ext ck) stem)).head? with
      | none =>
        simpa only [dl_loop, hext, hhd] using
          ih (att + 1) (prune_cache env.pruneFails mf (writeFile fs stem ext ck))
            (ck + 1) (d + 1) hc2 hu2
      | some f =>
        have hfstem : f.stem = stem := by
          have h1 : f ∈ insertionSort mtimeDesc (globStem (writeFile fs stem ext ck) stem) :=
            mem_of_head? hhd
          have h2 := (insertionSort_perm mtimeDesc _).mem_iff.mp h1
          have h3 := (List.mem_filter.mp h2).2
          simpa [beq_iff_eq] using h3
        by_cases hex :
            fileExists (prune_cache env.pruneFails mf (writeFile fs stem ext ck)) f.stem f.ext = true
        · refine ⟨?_, ?_, ?_⟩ <;> simp only [dl_loop, hext, hhd, hex, if_true]
          · exact hc2
          · exact hu2
          · intro s e hret
            simp only [Option.some.injEq, Prod.mk.injEq] at hret
            obtain ⟨rfl, rfl⟩ := hret
            exact ⟨hfstem, hex⟩
        · have hexf : fileExists (prune_cache env.pruneFails mf (writeFile fs stem ext ck))
              f.stem f.ext = false := by
            rw [← Bool.not_eq_true]; exact hex
          simpa only [dl_loop, hext, hhd, hexf, Bool.false_eq_true, if_false] using
            ih (att + 1) (prune_cache env.pruneFails mf (writeFile fs stem ext ck))
              (ck + 1) (d + 1) hc2 hu2

/-- Form of a successful lookup: the returned path is always the fixed
webm name for the url, and such a file is present. -/
theorem get_cached_some {fs : List CFile} {url : String} {p : String × String}
    (h : get_cached_file_for_url fs url = some p) :
    p = (url_stem url, "webm") ∧ ∃ f ∈ fs, f.stem = url_stem url ∧ f.ext = "webm" := by
  unfold get_cached_file_for_url at h
  by_cases hex : fileExists fs (url_stem url) "webm" = true
  · rw [if_pos hex] at h
    obtain ⟨f, hf, h1, h2⟩ := fileExists_iff.mp hex
    exact ⟨(Option.some.injEq _ _ ▸ h).symm, f, hf, h1, h2⟩
  · rw [if_neg hex] at h
    exact absurd h (by simp)

/-- Invariant of download_to_cache: from a directory of fully written files
with unique names it produces one again, and any returned path carries the
stem of the url and names a file present in the final directory. -/
theorem download_to_cache_inv (env : DlEnv) (force : Bool) (maxR maxF : Nat)
    (url : String) (fs : List CFile) (ck : Nat)
    (hc : AllComplete fs) (hu : UniqueNames fs) :
    AllComplete (download_to_cache env force maxR maxF url fs ck).fs ∧
    UniqueNames (download_to_cache env force maxR maxF url fs ck).fs ∧
    (∀ s e, (download_to_cache env force maxR maxF url fs ck).ret = some (s, e) →
      s = url_stem url ∧
      fileExists (download_to_cache env force maxR maxF url fs ck).fs s e = true) := by
  unfold download_to_cache
  cases hget : get_cached_file_for_url fs url with
  | none =>
    cases force <;>
      exact dl_loop_inv env maxF (url_stem url) (maxR + 1) 0 fs ck 0 hc hu
  | some p =>
    cases force with
    | false =>
      refine ⟨hc, hu, ?_⟩
      intro s e hret
      simp only [DlOut.mk.injEq] at hret
      obtain ⟨hp, hfe⟩ := get_cached_some hget
      rw [hp] at hret
      simp only [Option.some.injEq, Prod.mk.injEq] at hret
      obtain ⟨rfl, rfl⟩ := hret.symm
      exact ⟨rfl, fileExists_iff.mpr hfe⟩
    | true =>
      cases hul : env.unlinkOk with
      | true =>
        simp only [if_pos rfl]
        exact dl_loop_inv env maxF (url_stem url) (maxR + 1) 0
          (removeFile fs (url_stem url) "webm") ck 0
          (AllComplete_removeFile hc _ _) (UniqueNames_removeFile hu _ _)
      | false =>
        simp only [Bool.false_eq_true, if_false]
        exact dl_loop_inv env maxF (url_stem url) (maxR + 1) 0 fs ck 0 hc hu

/-- Invariant of operation sequences: full writes and unique names are
preserved by every download and eviction. -/
theorem runOps_inv : ∀ (ops : List CacheOp) (fs : List CFile) (ck : Nat),
    AllComplete fs → UniqueNames fs →
    AllComplete (runOps ops (fs, ck)).1 ∧ UniqueNames (runOps ops (fs, ck)).1
  | [], fs, ck, hc, hu => ⟨hc, hu⟩
  | .download env force mr mf url :: ops, fs, ck, hc, hu => by
    have h := download_to_cache_inv env force mr mf url fs ck hc hu
    simpa [runOps] using
      runOps_inv ops (download_to_cache env force mr mf url fs ck).fs
        (download_to_cache env force mr mf url fs ck).clock h.1 h.2.1
  | .evict fails mf :: ops, fs, ck, hc, hu => by
    simpa [runOps] using
      runOps_inv ops (prune_cache fails mf fs) ck
        (AllComplete_prune hc) (UniqueNames_prune hu)

/-- C2 amended: across any sequence of downloads and evictions starting from
an empty cache directory, every file on disk is fully written and no two
files share a name, so per key and extension at most one cache file exists
and a lookup never returns a file that is not fully written. The original
claim is stronger and fails: the lookup name is fixed to extension webm
while the downloader chooses the real extension, so successive downloads of
one key can leave several files for that key (see the counterexample); and
whether a reader can observe a partially written file during a download is
decided inside the external downloader, which is handed the final path as
its output template, not by this repository. -/
theorem C2_unique_name_complete_visible (ops : List CacheOp) :
    AllComplete (runOps ops ([], 0)).1 ∧
    UniqueNames (runOps ops ([], 0)).1 ∧
    (∀ url p, get_cached_file_for_url (runOps ops ([], 0)).1 url = some p →
      ∃ f ∈ (runOps ops ([], 0)).1, f.stem = p.1 ∧ f.ext = p.2 ∧ f.complete = true) := by
  obtain ⟨hc, hu⟩ := runOps_inv ops [] 0 (by intro f hf; simp at hf)
    (by simp [UniqueNames])
  refine ⟨hc, hu, ?_⟩
  intro url p hp
  obtain ⟨hpeq, f, hf, h1, h2⟩ := get_cached_some hp
  exact ⟨f, hf, by rw [hpeq]; exact h1, by rw [hpeq]; exact h2, hc f hf⟩

/-- Downloader environment that always completes choosing extension m4a. -/
def envExtM4a : DlEnv :=
  { attemptExt := fun _ => some "m4a", unlinkOk := true, pruneFails := noPruneFail }

/-- Downloader environment that always completes choosing extension webm. -/
def envExtWebm : DlEnv :=
  { attemptExt := fun _ => some "webm", unlinkOk := true, pruneFails := noPruneFail }

/-- C2 counterexample: downloading the same url twice, once with the
downloader choosing extension m4a and once webm, leaves two cache files for
the one key, because the cache-hit check only consults the fixed webm name
and never sees the m4a file. This falsifies the claim that at most one
cache file exists per key at every point of a fetch sequence. -/
theorem C2_counterexample :
    ((runOps [CacheOp.download envExtM4a false 3 50 "u",
              CacheOp.download envExtWebm false 3 50 "u"] ([], 0)).1.filter
        (fun f => f.stem == url_stem "u")).length = 2 := by decide

/-- C3 counterexample: a download that completes with the downloader
choosing extension m4a returns its path successfully, yet the immediately
following lookup for the same url misses, because the lookup consults only
the fixed webm name. This falsifies the claim that a lookup right after a
successful put always returns an existing path. -/
theorem C3_counterexample :
    (download_to_cache envExtM4a false 3 50 "u" [] 0).ret =
      some (url_stem "u", "m4a") ∧
    get_cached_file_for_url (download_to_cache envExtM4a false 3 50 "u" [] 0).fs
      "u" = none := by decide

/-- C3 amended: when download_to_cache returns a path carrying the fixed
webm extension of the lookup name, the immediately following lookup for the
same url returns that path, and a fully written file of that name is
present in the cache directory. For any other extension the claim fails
(see the counterexample). -/
theorem C3_put_then_lookup_webm (env : DlEnv) (force : Bool) (maxR maxF : Nat)
    (url : String) (fs : List CFile) (ck : Nat)
    (hc : AllComplete fs) (hu : UniqueNames fs)
    (hret : (download_to_cache env force maxR maxF url fs ck).ret =
      some (url_stem url, "webm")) :
    get_cached_file_for_url (download_to_cache env force maxR maxF url fs ck).fs url =
      some (url_stem url, "webm") ∧
    ∃ f ∈ (download_to_cache env force maxR maxF url fs ck).fs,
      f.stem = url_stem url ∧ f.ext = "webm" ∧ f.complete = true := by
  obtain ⟨hco2, hu2, hretprop⟩ := download_to_cache_inv env force maxR maxF url fs ck hc hu
  obtain ⟨-, hfe⟩ := hretprop (url_stem url) "webm" hret
  refine ⟨?_, ?_⟩
  · unfold get_cached_file_for_url
    rw [if_pos hfe]
  · obtain ⟨f, hf, h1, h2⟩ := fileExists_iff.mp hfe
    exact ⟨f, hf, h1, h2, hco2 f hf⟩

/-- Witness for the amended C3 theorem: a concrete download completing with
extension webm, followed by the lookup. -/
theorem C3_put_then_lookup_webm_witness :
    (AllComplete ([] : List CFile) ∧ UniqueNames ([] : List CFile) ∧
     (download_to_cache envExtWebm false 3 50 "u" [] 0).ret =
       some (url_stem "u", "webm")) ∧
    (get_cached_file_for_url (download_to_cache envExtWebm false 3 50 "u" [] 0).fs "u" =
       some (url_stem "u", "webm") ∧
     ∃ f ∈ (download_to_cache envExtWebm false 3 50 "u" [] 0).fs,
       f.stem = url_stem "u" ∧ f.ext = "webm" ∧ f.complete = true) :=
  ⟨⟨by intro f hf; simp at hf, by simp [UniqueNames], by decide⟩,
   C3_put_then_lookup_webm envExtWebm false 3 50 "u" [] 0
     (by intro f hf; simp at hf) (by simp [UniqueNames]) (by decide)⟩

/-- The downloader invocation counter never decreases. -/
theorem dl_loop_downloads_ge (env : DlEnv) (mf : Nat) (stem : String) :
    ∀ rem att fs ck d, d ≤ (dl_loop env mf stem rem att fs ck d).downloads := by
  intro rem
  induction rem with
  | zero => intro att fs ck d; simp [dl_loop]
  | succ rem ih =>
    intro att fs ck d
    cases hext : env.attemptExt att with
    | none =>
      simp only [dl_loop, hext]
      exact le_trans (Nat.le_succ d) (ih (att + 1) fs ck (d + 1))
    | some ext =>
      simp only [dl_loop, hext]
      cases hhd : (insertionSort mtimeDesc (globStem (writeFile fs stem ext ck) stem)).head? with
      | none =>
        exact le_trans (Nat.le_succ d) (ih (att + 1) _ (ck + 1) (d + 1))
      | some f =>
        by_cases hex : fileExists (prune_cache env.pruneFails mf (writeFile fs stem ext ck))
            f.stem f.ext = true
        · simp only [hex, if_true]
          exact Nat.le_succ d
        · have hexf : fileExists (prune_cache env.pruneFails mf (writeFile fs stem ext ck))
              f.stem f.ext = false := by rw [← Bool.not_eq_true]; exact hex
          simp only [hexf, Bool.false_eq_true, if_false]
          exact le_trans (Nat.le_succ d) (ih (att + 1) _ (ck + 1) (d + 1))

/-- With at least one iteration available the loop always makes at least one
downloader invocation. -/
theorem dl_loop_downloads_pos (env : DlEnv) (mf : Nat) (stem : String)
    (rem att : ℕ) (fs : List CFile) (ck d : ℕ) (h : 1 ≤ rem) :
    d + 1 ≤ (dl_loop env mf stem rem att fs ck d).downloads := by
  cases rem with
  | zero => omega
  | succ rem =>
    cases hext : env.attemptExt att with
    | none =>
      simp only [dl_loop, hext]
      exact dl_loop_downloads_ge env mf stem rem (att + 1) fs ck (d + 1)
    | some ext =>
      simp only [dl_loop, hext]
      cases hhd : (insertionSort mtimeDesc (globStem (writeFile fs stem ext ck) stem)).head? with
      | none => exact dl_loop_downloads_ge env mf stem rem (att + 1) _ (ck + 1) (d + 1)
      | some f =>
        by_cases hex : fileExists (prune_cache env.pruneFails mf (writeFile fs stem ext ck))
            f.stem f.ext = true
        · simp only [hex, if_true]
          omega
        · have hexf : fileExists (prune_cache env.pruneFails mf (writeFile fs stem ext ck))
              f.stem f.ext = false := by rw [← Bool.not_eq_true]; exact hex
          simp only [hexf, Bool.false_eq_true, if_false]
          exact dl_loop_downloads_ge env mf stem rem (att + 1) _ (ck + 1) (d + 1)


/-- The head of the list sorted newest-first has the largest mtime. -/
theorem head_mtime_max {l : List CFile} {f : CFile}
    (hhd : (insertionSort mtimeDesc l).head? = some f) :
    ∀ x ∈ l, x.mtime ≤ f.mtime := by
  intro x hx
  have hp := @insertionSort_pairwise CFile mtimeDesc
    (fun a b c hab hbc => by
      simp only [mtimeDesc, decide_eq_true_eq] at *; omega)
    (fun a b hab => by
      simp only [mtimeDesc, decide_eq_true_eq, decide_eq_false_iff_not] at *; omega)
    l
  have hxs : x ∈ insertionSort mtimeDesc l := (insertionSort_perm mtimeDesc l).mem_iff.mpr hx
  cases hsort : insertionSort mtimeDesc l with
  | nil => rw [hsort] at hxs; simp at hxs
  | cons y tail =>
    rw [hsort] at hhd hxs hp
    simp only [List.head?_cons, Option.some.injEq] at hhd
    subst hhd
    rcases List.mem_cons.mp hxs with rfl | hxt
    · exact le_refl _
    · have := (List.pairwise_cons.mp hp).1 x hxt
      simpa [mtimeDesc] using this

/-- Every file in the directory after a completed write at the clock is
older than the next clock value. -/
theorem writeFile_mtime_lt {fs : List CFile} {ck : Nat}
    (h : ∀ g ∈ fs, g.mtime < ck) (stem ext : String) :
    ∀ g ∈ writeFile fs stem ext ck, g.mtime < ck + 1 := by
  intro g hg
  rcases mem_writeFile.mp hg with ⟨hmem, _⟩ | rfl
  · exact lt_trans (h g hmem) (Nat.lt_succ_self ck)
  · exact Nat.lt_succ_self ck

/-- Freshness of a returned path: if every pre-existing file is older than
the clock at entry, then any path the loop returns names a file of the
final directory written during this call, never a pre-existing file. -/
theorem dl_loop_fresh (env : DlEnv) (mf : Nat) (stem : String) :
    ∀ rem att fs ck d, (∀ g ∈ fs, g.mtime < ck) →
    ∀ s e, (dl_loop env mf stem rem att fs ck d).ret = some (s, e) →
    ∃ f ∈ (dl_loop env mf stem rem att fs ck d).fs,
      f.stem = s ∧ f.ext = e ∧ ck ≤ f.mtime := by
  intro rem
  induction rem with
  | zero =>
    intro att fs ck d hold s e hret
    simp [dl_loop] at hret
  | succ rem ih =>
    intro att fs ck d hold s e hret
    cases hext : env.attemptExt att with
    | none =>
      rw [show dl_loop env mf stem (rem + 1) att fs ck d =
        dl_loop env mf stem rem (att + 1) fs ck (d + 1) by
          simp only [dl_loop, hext]] at hret ⊢
      exact ih (att + 1) fs ck (d + 1) hold s e hret
    | some ext =>
      have hold1 := writeFile_mtime_lt hold stem ext
      have hold2 : ∀ g ∈ prune_cache env.pruneFails mf (writeFile fs stem ext ck),
          g.mtime < ck + 1 := fun g hg => hold1 g (mem_prune_cache hg)
      cases hhd : (insertionSort mtimeDesc (globStem (writeFile fs stem ext ck) stem)).head? with
      | none =>
        rw [show dl_loop env mf stem (rem + 1) att fs ck d =
          dl_loop env mf stem rem (att + 1)
            (prune_cache env.pruneFails mf (writeFile fs stem ext ck)) (ck + 1) (d + 1) by
            simp only [dl_loop, hext, hhd]] at hret ⊢
        obtain ⟨f, hf, h1, h2, h3⟩ := ih (att + 1) _ (ck + 1) (d + 1) hold2 s e hret
        exact ⟨f, hf, h1, h2, by omega⟩
      | some f =>
        by_cases hex : fileExists (prune_cache env.pruneFails mf (writeFile fs stem ext ck))
            f.stem f.ext = true
        · rw [show dl_loop env mf stem (rem + 1) att fs ck d =
            ⟨prune_cache env.pruneFails mf (writeFile fs stem ext ck), ck + 1,
              some (f.stem, f.ext), d + 1⟩ by
              simp only [dl_loop, hext, hhd, hex, if_true]] at hret ⊢
          simp only [Option.some.injEq, Prod.mk.injEq] at hret
          obtain ⟨rfl, rfl⟩ := hret
          -- the newest glob match is the file just written
          have hnfw : newCFile stem ext ck ∈ writeFile fs stem ext ck :=
            mem_writeFile.mpr (Or.inr rfl)
          have hnfg : newCFile stem ext ck ∈ globStem (writeFile fs stem ext ck) stem :=
            List.mem_filter.mpr ⟨hnfw, by simp [newCFile]⟩
          have hckf : ck ≤ f.mtime := head_mtime_max hhd _ hnfg
          have hf1 : f ∈ writeFile fs stem ext ck := by
            have h1 : f ∈ insertionSort mtimeDesc (globStem (writeFile fs stem ext ck) stem) :=
              mem_of_head? hhd
            exact (List.mem_filter.mp ((insertionSort_perm mtimeDesc _).mem_iff.mp h1)).1
          have hfnf : f = newCFile stem ext ck := by
            rcases mem_writeFile.mp hf1 with ⟨hmem, _⟩ | hfeq
            · exact absurd hckf (by have := hold f hmem; omega)
            · exact hfeq
          obtain ⟨g, hg, hg1, hg2⟩ := fileExists_iff.mp hex
          have hgw : g ∈ writeFile fs stem ext ck := mem_prune_cache hg
          have hgnf : g = newCFile stem ext ck := by
            rcases mem_writeFile.mp hgw with ⟨_, hnot⟩ | hgeq
            · exact absurd ⟨by rw [hg1, hfnf]; simp [newCFile],
                by rw [hg2, hfnf]; simp [newCFile]⟩ hnot
            · exact hgeq
          exact ⟨g, hg, hg1, hg2, by rw [hgnf]; exact le_refl ck⟩
        · have hexf : fileExists (prune_cache env.pruneFails mf (writeFile fs stem ext ck))
              f.stem f.ext = false := by rw [← Bool.not_eq_true]; exact hex
          rw [show dl_loop env mf stem (rem + 1) att fs ck d =
            dl_loop env mf stem rem (att + 1)
              (prune_cache env.pruneFails mf (writeFile fs stem ext ck)) (ck + 1) (d + 1) by
              simp only [dl_loop, hext, hhd, hexf, Bool.false_eq_true, if_false]] at hret ⊢
          obtain ⟨f2, hf2, h1, h2, h3⟩ := ih (att + 1) _ (ck + 1) (d + 1) hold2 s e hret
          exact ⟨f2, hf2, h1, h2, by omega⟩

/-- C6: with an existing cache entry, force-refresh enabled and a
succeeding unlink, download_to_cache never returns the pre-existing cached
file: the cached file is removed before the retry loop runs (so the lookup
name is gone before any write), a downloader invocation is always made
despite the cache hit, and any returned path names a file written during
this call, as witnessed by its write time being at or after the clock at
entry while every pre-existing file is older. -/
theorem C6_force_refresh_fresh_download (env : DlEnv) (maxR maxF : Nat)
    (url : String) (fs : List CFile) (ck : Nat)
    (hexist : (get_cached_file_for_url fs url).isSome = true)
    (hunlink : env.unlinkOk = true)
    (htime : ∀ f ∈ fs, f.mtime < ck) :
    download_to_cache env true maxR maxF url fs ck =
      dl_loop env maxF (url_stem url) (maxR + 1) 0
        (removeFile fs (url_stem url) "webm") ck 0 ∧
    get_cached_file_for_url (removeFile fs (url_stem url) "webm") url = none ∧
    1 ≤ (download_to_cache env true maxR maxF url fs ck).downloads ∧
    (∀ s e, (download_to_cache env true maxR maxF url fs ck).ret = some (s, e) →
      ∃ f ∈ (download_to_cache env true maxR maxF url fs ck).fs,
        f.stem = s ∧ f.ext = e ∧ ck ≤ f.mtime) := by
  obtain ⟨p, hp⟩ := Option.isSome_iff_exists.mp hexist
  have h1 : download_to_cache env true maxR maxF url fs ck =
      dl_loop env maxF (url_stem url) (maxR + 1) 0
        (removeFile fs (url_stem url) "webm") ck 0 := by
    unfold download_to_cache
    rw [hp]
    simp [hunlink]
  have h2 : get_cached_file_for_url (removeFile fs (url_stem url) "webm") url = none := by
    unfold get_cached_file_for_url
    rw [fileExists_removeFile_self]
    simp
  refine ⟨h1, h2, ?_, ?_⟩
  · rw [h1]
    exact dl_loop_downloads_pos env maxF (url_stem url) (maxR + 1) 0 _ ck 0 (by omega)
  · rw [h1]
    exact dl_loop_fresh env maxF (url_stem url) (maxR + 1) 0 _ ck 0
      (fun g hg => htime g (mem_removeFile.mp hg).1)

/-- Concrete pre-existing cached file for the C6 witness. -/
def wCached : CFile := { stem := "u", ext := "webm", complete := true, mtime := 0, atime := 0 }

/-- Witness for C6 at a concrete cached entry and a succeeding refresh. -/
theorem C6_force_refresh_fresh_download_witness :
    ((get_cached_file_for_url [wCached] "u").isSome = true ∧
     envExtWebm.unlinkOk = true ∧
     (∀ f ∈ [wCached], f.mtime < 1)) ∧
    (download_to_cache envExtWebm true 3 50 "u" [wCached] 1 =
       dl_loop envExtWebm 50 (url_stem "u") (3 + 1) 0
         (removeFile [wCached] (url_stem "u") "webm") 1 0 ∧
     get_cached_file_for_url (removeFile [wCached] (url_stem "u") "webm") "u" = none ∧
     1 ≤ (download_to_cache envExtWebm true 3 50 "u" [wCached] 1).downloads ∧
     (∀ s e, (download_to_cache envExtWebm true 3 50 "u" [wCached] 1).ret = some (s, e) →
       ∃ f ∈ (download_to_cache envExtWebm true 3 50 "u" [wCached] 1).fs,
         f.stem = s ∧ f.ext = e ∧ 1 ≤ f.mtime)) :=
  ⟨⟨by decide, rfl, by decide⟩,
   C6_force_refresh_fresh_download envExtWebm 3 50 "u" [wCached] 1
     (by decide) rfl (by decide)⟩

/- ------------------------------------------------------------------
   Retry schedule of download_to_cache (backoff and jitter)
   ------------------------------------------------------------------ -/

/-- Outcome of the retry schedule: number of downloader attempts made, the
waits slept between attempts in order, and whether an attempt completed. -/
structure BackoffOut where
  attempts : Nat
  waits : List ℚ
  ok : Bool

/-- Model of the retry schedule of download_to_cache (lines 701-742) as a
function of which attempt indices would complete and of the sampled jitter
values: while attempt is at most max_retries, run one attempt; on
completion stop; otherwise advance the attempt counter, break when it
passes max_retries, else sleep base * 2 ^ (attempt - 1) plus the jitter
sampled for that attempt. The fuel rem equals max_retries + 1 minus the
current attempt index att, so the zero-fuel case is never hit from the
entry point. -/
def backoff_loop (succ : Nat → Bool) (jit : Nat → ℚ) (base : ℚ) :
    Nat → Nat → List ℚ → BackoffOut
  | 0, att, ws => ⟨att, ws, false⟩
  | rem + 1, att, ws =>
    if succ att then ⟨att + 1, ws, true⟩
    else if rem = 0 then ⟨att + 1, ws, false⟩
    else backoff_loop succ jit base rem (att + 1) (ws ++ [base * 2 ^ att + jit (att + 1)])

/-- Retry schedule of one download_to_cache call: attempts start at zero
and the loop runs while attempt is at most max_retries. -/
def download_backoff (succ : Nat → Bool) (jit : Nat → ℚ) (maxR : Nat) (base : ℚ) :
    BackoffOut :=
  backoff_loop succ jit base (maxR + 1) 0 []

/-- The schedule makes at most fuel many further attempts. -/
theorem backoff_loop_attempts (succ : Nat → Bool) (jit : Nat → ℚ) (base : ℚ) :
    ∀ rem att ws, (backoff_loop succ jit base rem att ws).attempts ≤ att + rem := by
  intro rem
  induction rem with
  | zero => intro att ws; simp [backoff_loop]
  | succ rem ih =>
    intro att ws
    simp only [backoff_loop]
    by_cases hs : succ att
    · simp [hs]
    · simp only [hs, Bool.false_eq_true, if_false]
      by_cases hr : rem = 0
      · simp [hr]
      · simp only [hr, if_false]
        have := ih (att + 1) (ws ++ [base * 2 ^ att + jit (att + 1)])
        omega

/-- Waits of an always-failing schedule: after the k-th failed attempt the
schedule waits base * 2 ^ (k - 1) plus the jitter sampled for attempt k,
for k running from att + 1 while fuel remains. -/
theorem backoff_loop_allfail_waits (jit : Nat → ℚ) (base : ℚ) :
    ∀ rem att ws, (backoff_loop (fun _ => false) jit base rem att ws).waits =
      ws ++ (List.range' (att + 1) (rem - 1)).map (fun k => base * 2 ^ (k - 1) + jit k) := by
  intro rem
  induction rem with
  | zero => intro att ws; simp [backoff_loop]
  | succ rem ih =>
    intro att ws
    cases rem with
    | zero => simp [backoff_loop]
    | succ r =>
      have hstep : backoff_loop (fun _ => false) jit base (r + 1 + 1) att ws =
          backoff_loop (fun _ => false) jit base (r + 1) (att + 1)
            (ws ++ [base * 2 ^ att + jit (att + 1)]) := rfl
      rw [hstep, ih (att + 1) (ws ++ [base * 2 ^ att + jit (att + 1)])]
      simp only [Nat.add_sub_cancel]
      rw [show List.range' (att + 1) (r + 1) = (att + 1) :: List.range' (att + 2) r from by
        simp [List.range']]
      simp [List.append_assoc, Nat.add_sub_cancel]

/-- C5: the fetcher makes at most max_retries + 1 downloader attempts;
after the k-th failed attempt it waits base * 2 ^ (k - 1) plus the jitter
sampled for attempt k, each jitter lying in [0, one fifth of that delay];
and in the concrete scenario max_retries = 3, base = 1 with the first two
attempts failing and the third completing, the fetch completes on the third
attempt with a total wait between 3 and 18 / 5. -/
theorem C5_backoff_schedule (succ : Nat → Bool) (jit : Nat → ℚ) (maxR : Nat) (base : ℚ)
    (hjit : ∀ k, 0 ≤ jit k ∧ jit k ≤ base * 2 ^ (k - 1) / 5) :
    (download_backoff succ jit maxR base).attempts ≤ maxR + 1 ∧
    (download_backoff (fun _ => false) jit maxR base).waits =
      (List.range' 1 maxR).map (fun k => base * 2 ^ (k - 1) + jit k) ∧
    (base = 1 → maxR = 3 → (∀ a, succ a = (a == 2)) →
      (download_backoff succ jit maxR base).ok = true ∧
      (download_backoff succ jit maxR base).attempts = 3 ∧
      3 ≤ (download_backoff succ jit maxR base).waits.sum ∧
      (download_backoff succ jit maxR base).waits.sum ≤ 18 / 5) := by
  refine ⟨?_, ?_, ?_⟩
  · have := backoff_loop_attempts succ jit base (maxR + 1) 0 []
    simpa [download_backoff] using this
  · have := backoff_loop_allfail_waits jit base (maxR + 1) 0 []
    simpa [download_backoff] using this
  · intro hbase hmaxR hsucc
    subst hbase hmaxR
    have e0 := hsucc 0
    have e1 := hsucc 1
    have e2 := hsucc 2
    have hrun : download_backoff succ jit 3 1 =
        ⟨3, [1 * 2 ^ 0 + jit 1, 1 * 2 ^ 1 + jit 2], true⟩ := by
      simp [download_backoff, backoff_loop, e0, e1, e2]
    rw [hrun]
    obtain ⟨hj10, hj11⟩ := hjit 1
    obtain ⟨hj20, hj21⟩ := hjit 2
    norm_num at hj11 hj21
    refine ⟨rfl, rfl, ?_, ?_⟩
    · simp [List.sum_cons]
      linarith
    · simp [List.sum_cons]
      linarith

/-- Completion oracle of the C5 witness: only the third attempt succeeds. -/
def wSucc : Nat → Bool := fun a => a == 2

/-- Jitter samples of the C5 witness: all zero. -/
def wJit : Nat → ℚ := fun _ => 0

/-- Witness for C5 at a concrete completion oracle and zero jitter. -/
theorem C5_backoff_schedule_witness :
    (∀ k, 0 ≤ wJit k ∧ wJit k ≤ (1 : ℚ) * 2 ^ (k - 1) / 5) ∧
    ((download_backoff wSucc wJit 3 1).attempts ≤ 3 + 1 ∧
     (download_backoff wSucc wJit 3 1).ok = true ∧
     (download_backoff wSucc wJit 3 1).attempts = 3 ∧
     3 ≤ (download_backoff wSucc wJit 3 1).waits.sum ∧
     (download_backoff wSucc wJit 3 1).waits.sum ≤ 18 / 5) := by
  have hjit : ∀ k, 0 ≤ wJit k ∧ wJit k ≤ (1 : ℚ) * 2 ^ (k - 1) / 5 := by
    intro k
    constructor
    · simp [wJit]
    · simp only [wJit]
      positivity
  have h := C5_backoff_schedule wSucc wJit 3 1 hjit
  have hsc := h.2.2 rfl rfl (fun a => rfl)
  exact ⟨hjit, h.1, hsc.1, hsc.2.1, hsc.2.2.1, hsc.2.2.2⟩

/- ------------------------------------------------------------------
   Interactive playback session (interactive_play, handle_input)
   ------------------------------------------------------------------ -/

/-- Key the playback polling loop of interactive_play reacts to; any other
character is ignored by the loop. -/
inductive SessionKey where
  | next
  | replay
  | quit
deriving DecidableEq, Repr

/-- What happened during one playback: either the user pressed a recognized
key (the player is then terminated and the exit code is ignored because
user_action is set), or the process exited by itself with the given code
while no key was pressed. In the latter case the arrival argument tells
whether and when a line of input reaches the natural-end prompt. -/
inductive PlayEv where
  | key (k : SessionKey)
  | exited (code : Int) (arrival : Option (ℚ × String))
deriving DecidableEq, Repr

/-- Environment of one interactive_play session, indexed by the running
count of inner-loop playback iterations: whether the cache download yields
a path, whether the player process starts, and what happens during
playback. -/
structure StartEnv where
  dlOk : Nat → Bool
  launchOk : Nat → Bool
  ev : Nat → PlayEv

/-- Effective input of the natural-end prompt of interactive_play (lines
1137-1155): the background reader thread is joined after 3 seconds, so a
line is seen exactly when it arrives within 3 seconds. -/
def natural_end_effective (arrival : Option (ℚ × String)) : Option String :=
  match arrival with
  | none => none
  | some (t, line) => if t ≤ 3 then some line else none

/-- Time interactive_play spends at the natural-end prompt: t.join(3)
returns when input arrives or after 3 seconds, whichever is first. -/
def natural_end_wait (arrival : Option (ℚ × String)) : ℚ :=
  match arrival with
  | none => 3
  | some (t, _) => min t 3

/-- Action after the natural-end prompt (lines 1151-1168): no input within
the timeout, the line n, or any unrecognized line advance to the next
entry; r replays; q quits. -/
def natural_end_action (arrival : Option (ℚ × String)) : SessionKey :=
  match natural_end_effective arrival with
  | none => .next
  | some line =>
    if line = "n" then .next
    else if line = "r" then .replay
    else if line = "q" then .quit
    else .next

/-- End of a session in the model. -/
inductive SessEnd where
  | endOfList
  | quit
deriving DecidableEq, Repr

/-- Control position inside interactive_play: about to test the outer
playlist loop, about to test the inner retry loop, or returned. -/
inductive SessPhase where
  | outerCheck
  | innerCheck
  | done (e : SessEnd)
deriving DecidableEq, Repr

/-- State of an interactive_play session: current entry index, retry
counter, running count of inner-loop playback iterations, and control
position. -/
structure SessState where
  idx : Nat
  retry : Nat
  nStarts : Nat
  phase : SessPhase
deriving DecidableEq, Repr

/-- Tail of one inner-loop iteration of interactive_play once the player
has run (lines 1109-1168): a nonzero exit with no key increments the retry
counter and loops, a replay key resets the counter and loops, a next key
advances the entry index, a quit key returns, and a zero exit goes through
the natural-end prompt. -/
def inner_step (ev : PlayEv) (idx retry : Nat) : Nat × Nat × SessPhase :=
  match ev with
  | .key .quit => (idx, retry, .done .quit)
  | .key .next => (idx + 1, retry, .outerCheck)
  | .key .replay => (idx, 0, .innerCheck)
  | .exited code arrival =>
    if code ≠ 0 then (idx, retry + 1, .innerCheck)
    else
      match natural_end_action arrival with
      | .next => (idx + 1, retry, .outerCheck)
      | .replay => (idx, 0, .innerCheck)
      | .quit => (idx, retry, .done .quit)

/-- One step of the interactive_play control flow (lines 1000-1168). At the
outer check a remaining entry resets the retry counter and enters the retry
loop, an exhausted index ends the session. At the inner check a retry
counter below 3 attempts a playback: in cache mode a failed download
advances the index, a player failing to start advances the index, and
otherwise inner_step decides; a retry counter at 3 falls out of the inner
loop back to the outer check with the index unchanged, since the code has
no index advance on that path. -/
def sess_step (cacheMode : Bool) (env : StartEnv) (numEntries : Nat)
    (st : SessState) : SessState :=
  match st.phase with
  | .done _ => st
  | .outerCheck =>
    if st.idx < numEntries then { st with retry := 0, phase := .innerCheck }
    else { st with phase := .done .endOfList }
  | .innerCheck =>
    if st.retry < 3 then
      if cacheMode && !(env.dlOk st.nStarts) then
        { st with idx := st.idx + 1, nStarts := st.nStarts + 1, phase := .outerCheck }
      else if !(env.launchOk st.nStarts) then
        { st with idx := st.idx + 1, nStarts := st.nStarts + 1, phase := .outerCheck }
      else
        let r := inner_step (env.ev st.nStarts) st.idx st.retry
        { idx := r.1, retry := r.2.1, nStarts := st.nStarts + 1, phase := r.2.2 }
    else { st with phase := .outerCheck }

/-- Whether this step starts the player, and for which entry index: a
playback iteration whose download (in cache mode) and player launch both
succeed. -/
def sess_started (cacheMode : Bool) (env : StartEnv) (st : SessState) : List Nat :=
  match st.phase with
  | .innerCheck =>
    if st.retry < 3 && !(cacheMode && !(env.dlOk st.nStarts)) && env.launchOk st.nStarts
    then [st.idx] else []
  | _ => []

/-- Fuel-bounded run of the session, collecting the entry index of every
player start in order and the final state. -/
def sess_run (cacheMode : Bool) (env : StartEnv) (numEntries : Nat) :
    Nat → SessState → List Nat × SessState
  | 0, st => ([], st)
  | fuel + 1, st =>
    let rest := sess_run cacheMode env numEntries fuel (sess_step cacheMode env numEntries st)
    (sess_started cacheMode env st ++ rest.1, rest.2)

/-- Initial state of interactive_play: entry index 0, about to test the
playlist loop. -/
def sess_init : SessState :=
  { idx := 0, retry := 0, nStarts := 0, phase := .outerCheck }

/-- Environment in which every player start exits at once with code 1 and
no key is ever pressed. -/
def envCrash : StartEnv :=
  { dlOk := fun _ => true, launchOk := fun _ => true, ev := fun _ => .exited 1 none }

/-- C1: on a one-entry playlist whose player always exits with code 1 and
with no keypress, the session starts the entry at least four times within
twenty steps and neither advances past it nor ends: after three failed
starts the inner retry loop falls through without advancing the index, so
the outer loop resets the retry counter and starts the same entry again,
against the documented limit of three starts followed by advancing. -/
theorem C1_retry_exhaustion_restarts_item :
    4 ≤ ((sess_run false envCrash 1 20 sess_init).1.filter (fun i => i == 0)).length ∧
    (sess_run false envCrash 1 20 sess_init).2.idx = 0 ∧
    (sess_run false envCrash 1 20 sess_init).2.phase ≠ SessPhase.done SessEnd.endOfList ∧
    (sess_run false envCrash 1 20 sess_init).2.phase ≠ SessPhase.done SessEnd.quit := by
  decide

/-- Model of the natural-end prompt of the single-video path of
handle_input (lines 1304-1317): a plain blocking input() in a loop that
accepts only r and q and re-prompts on anything else. The argument is the
sequence of lines the user ever types; none as the result stands for the
call still being blocked in input() after consuming them all, so with no
input the prompt never resolves and in particular never auto-advances. -/
def single_natural_end_action : List String → Option SessionKey
  | [] => none
  | line :: rest =>
    if line = "r" then some .replay
    else if line = "q" then some .quit
    else single_natural_end_action rest

/-- C8 counterexample: at a natural end with no input, the single-video
prompt of handle_input yields no action at all (it stays blocked in
input(), with no timeout), while the playlist prompt of interactive_play
resolves to next after exactly 3 seconds; so it is false that every
natural end in a session is handled by a prompt that waits at most 3
seconds and then advances. -/
theorem C8_counterexample :
    single_natural_end_action [] = none ∧
    natural_end_action none = SessionKey.next ∧
    natural_end_wait none = 3 := by
  refine ⟨rfl, rfl, rfl⟩

/-- C8 amended: in playlist playback (interactive_play), whenever the
player exits with code 0 and no key was pressed, the natural-end prompt
waits at most 3 seconds; when no input arrives within the timeout the
outcome is next and the session advances to the next entry. The
single-video path of handle_input is excluded: its prompt blocks without a
timeout. -/
theorem C8_playlist_natural_end_advances (arrival : Option (ℚ × String))
    (idx retry : Nat) (heff : natural_end_effective arrival = none) :
    natural_end_wait arrival ≤ 3 ∧
    natural_end_action arrival = SessionKey.next ∧
    inner_step (PlayEv.exited 0 arrival) idx retry =
      (idx + 1, retry, SessPhase.outerCheck) := by
  have hwait : natural_end_wait arrival ≤ 3 := by
    cases arrival with
    | none => simp [natural_end_wait]
    | some p => simp [natural_end_wait]
  have hact : natural_end_action arrival = SessionKey.next := by
    simp [natural_end_action, heff]
  refine ⟨hwait, hact, ?_⟩
  simp [inner_step, hact]

/-- Witness for the amended C8 theorem: no input ever arrives. -/
theorem C8_playlist_natural_end_advances_witness :
    natural_end_effective none = none ∧
    (natural_end_wait none ≤ 3 ∧
     natural_end_action none = SessionKey.next ∧
     inner_step (PlayEv.exited 0 none) 5 1 = (5 + 1, 1, SessPhase.outerCheck)) :=
  ⟨rfl, C8_playlist_natural_end_advances none 5 1 rfl⟩
